import Mathlib

/-!
Verification of the elevator-system core (`elevator_system` package):
the per-car LOOK scheduling state machine (`elevator.py`), the request
model (`models.py`), the dispatch strategies (`strategies.py`) and the
builder validation (`builder.py`), shallowly embedded in Lean.

Embedding conventions:
* Python `int` is `Int`; container `SortedSet` is a duplicate-free
  `List Int` (insertion is membership-guarded, removal is `List.erase`;
  no observed behavior depends on the sorted order, only on membership,
  emptiness and comparisons against the current floor).
* The dict `_active_requests : floor -> set<Request>` files every active
  request under exactly its pickup and destination floors (it is added
  under both in `add_request` and discarded from both on completion), so
  it is represented by the flat list of active requests; the per-floor
  set is recovered by filtering on `pickup_floor = f or destination_floor = f`.
  Python `Request.__eq__` compares ids, so removal is by id.
* Python float scores in the LOOK dispatch strategy are embedded as
  exact rationals (`0.5 = 1/2`, `0.3 = 3/10`, `0.8 = 4/5`, ...).
* Locks, observers and notification calls have no effect on the state
  of the car and are omitted.
-/

namespace ElevatorSystem

inductive Direction where
  | UP
  | DOWN
  | IDLE
deriving DecidableEq

inductive DoorState where
  | OPEN
  | CLOSED
  | OPENING
  | CLOSING
deriving DecidableEq

/-- `models.Request`: immutable value object.  Identity (`__eq__`/`__hash__`)
is by `id`; the uuid is embedded as a `Nat`. -/
structure Request where
  id : Nat
  pickup_floor : Int
  destination_floor : Int
  passengers : Int
deriving DecidableEq

/-- `Request.direction`: UP iff the destination is above the pickup. -/
def Request.direction (r : Request) : Direction :=
  if r.destination_floor > r.pickup_floor then .UP else .DOWN

/-- `Request.__post_init__` validation: `mkRequest?` returns `none` exactly
when the Python constructor raises `ValueError`. -/
def mkRequest? (pickup_floor destination_floor passengers : Int) (id : Nat) :
    Option Request :=
  if pickup_floor = destination_floor then none
  else if passengers < 1 then none
  else some ⟨id, pickup_floor, destination_floor, passengers⟩

/-- The mutable state of `elevator.Elevator` (underscore-private Python
attributes become plain fields). -/
structure Elevator where
  elevator_id : Int
  min_floor : Int
  max_floor : Int
  capacity : Int
  current_floor : Int
  direction : Direction
  door_state : DoorState
  current_load : Int
  up_stops : List Int
  down_stops : List Int
  active_requests : List Request
deriving DecidableEq

/-- The state assigned by `Elevator.__init__` after its validation passes. -/
def mkElevator (elevator_id min_floor max_floor capacity start_floor : Int) :
    Elevator :=
  { elevator_id := elevator_id
    min_floor := min_floor
    max_floor := max_floor
    capacity := capacity
    current_floor := start_floor
    direction := .IDLE
    door_state := .CLOSED
    current_load := 0
    up_stops := []
    down_stops := []
    active_requests := [] }

/-- `Elevator.__init__`: `none` exactly when the constructor raises. -/
def initElevator? (elevator_id min_floor max_floor capacity start_floor : Int) :
    Option Elevator :=
  if min_floor > max_floor then none
  else if ¬ (min_floor ≤ start_floor ∧ start_floor ≤ max_floor) then none
  else if capacity < 1 then none
  else some (mkElevator elevator_id min_floor max_floor capacity start_floor)

/-- `SortedSet.add`: membership-guarded insertion. -/
def addStop (f : Int) (s : List Int) : List Int :=
  if f ∈ s then s else f :: s

/-- `Elevator.can_accept_request`: floor bounds for both request floors and
the static `passengers ≤ capacity` check. -/
def Elevator.can_accept_request (e : Elevator) (r : Request) : Bool :=
  if ¬ (e.min_floor ≤ r.pickup_floor ∧ r.pickup_floor ≤ e.max_floor) then false
  else if ¬ (e.min_floor ≤ r.destination_floor ∧ r.destination_floor ≤ e.max_floor) then false
  else if r.passengers > e.capacity then false
  else true

/-- `Elevator.add_request`: returns the updated elevator and the Python
return value. -/
def Elevator.add_request (e : Elevator) (r : Request) : Elevator × Bool :=
  if ¬ e.can_accept_request r then (e, false)
  else
    let active :=
      if e.active_requests.any (fun r' => r'.id = r.id) then e.active_requests
      else r :: e.active_requests
    let e1 :=
      if r.direction = .UP then
        { e with active_requests := active
                 up_stops := addStop r.destination_floor (addStop r.pickup_floor e.up_stops) }
      else
        { e with active_requests := active
                 down_stops := addStop r.destination_floor (addStop r.pickup_floor e.down_stops) }
    let e2 :=
      if e1.direction = .IDLE then
        if r.pickup_floor > e1.current_floor then { e1 with direction := .UP }
        else if r.pickup_floor < e1.current_floor then { e1 with direction := .DOWN }
        else { e1 with direction := r.direction }
      else e1
    (e2, true)

/-- `Elevator._is_current_floor_a_stop`. -/
def Elevator.is_current_floor_a_stop (e : Elevator) : Bool :=
  match e.direction with
  | .UP => decide (e.current_floor ∈ e.up_stops)
  | .DOWN => decide (e.current_floor ∈ e.down_stops)
  | .IDLE => decide (e.current_floor ∈ e.up_stops ∨ e.current_floor ∈ e.down_stops)

/-- The passenger loop of `Elevator._process_current_floor`: iterates the
requests active at `floor`, returning the new load and the ids of the
requests completed there (which are discarded from the bookkeeping after
the loop). -/
def processRequests (floor capacity : Int) :
    List Request → Int → Int × List Nat
  | [], load => (load, [])
  | r :: rest, load =>
    if r.destination_floor = floor then
      let p := processRequests floor capacity rest (max 0 (load - r.passengers))
      (p.1, r.id :: p.2)
    else if r.pickup_floor = floor then
      if load + r.passengers ≤ capacity then
        processRequests floor capacity rest (load + r.passengers)
      else
        processRequests floor capacity rest load
    else
      processRequests floor capacity rest load

/-- `Elevator._process_current_floor`: open doors, drop the floor from the
stop set of the current sweep direction, board/alight the requests active
at this floor, discard completed requests, close doors. -/
def Elevator.process_current_floor (e : Elevator) : Elevator :=
  let floor := e.current_floor
  let e1 := { e with door_state := .OPEN }
  let e2 :=
    if e1.direction = .UP ∧ floor ∈ e1.up_stops then
      { e1 with up_stops := e1.up_stops.erase floor }
    else if e1.direction = .DOWN ∧ floor ∈ e1.down_stops then
      { e1 with down_stops := e1.down_stops.erase floor }
    else e1
  let atFloor := e2.active_requests.filter
    (fun r => decide (r.pickup_floor = floor ∨ r.destination_floor = floor))
  let p := processRequests floor e2.capacity atFloor e2.current_load
  { e2 with
      current_load := p.1
      active_requests :=
        e2.active_requests.filter (fun r => decide (r.id ∉ p.2))
      door_state := .CLOSED }

/-- `Elevator._move`: one floor in the current direction, clamped. -/
def Elevator.move (e : Elevator) : Elevator :=
  match e.direction with
  | .UP =>
    if e.current_floor < e.max_floor then
      { e with current_floor := e.current_floor + 1 }
    else e
  | .DOWN =>
    if e.current_floor > e.min_floor then
      { e with current_floor := e.current_floor - 1 }
    else e
  | .IDLE => e

/-- `Elevator._has_pending_stops`. -/
def Elevator.has_pending_stops (e : Elevator) : Bool :=
  decide (e.up_stops ≠ [] ∨ e.down_stops ≠ [])

/-- `Elevator._update_direction`. -/
def Elevator.update_direction (e : Elevator) : Elevator :=
  match e.direction with
  | .UP =>
    if e.up_stops.filter (fun f => decide (f > e.current_floor)) ≠ [] then e
    else if e.down_stops ≠ [] then { e with direction := .DOWN }
    else if e.up_stops ≠ [] then { e with direction := .DOWN }
    else { e with direction := .IDLE }
  | .DOWN =>
    if e.down_stops.filter (fun f => decide (f < e.current_floor)) ≠ [] then e
    else if e.up_stops ≠ [] then { e with direction := .UP }
    else if e.down_stops ≠ [] then { e with direction := .UP }
    else { e with direction := .IDLE }
  | .IDLE => e

/-- The body of `Elevator.step` before `_update_direction`: process the
current floor if it is a stop, move if stops remain, and process the new
floor if it is also a stop. -/
def Elevator.stepCore (e : Elevator) : Elevator :=
  let e1 := if e.is_current_floor_a_stop then e.process_current_floor else e
  if e1.has_pending_stops then
    let e2 := e1.move
    if e2.is_current_floor_a_stop then e2.process_current_floor else e2
  else e1

/-- `Elevator.step`: one discrete time unit. -/
def Elevator.step (e : Elevator) : Elevator :=
  if e.direction = .IDLE then e
  else e.stepCore.update_direction

/-- `ElevatorState.is_idle` on the snapshot produced by `get_state` (the
snapshot fields coincide with the elevator fields). -/
def Elevator.is_idle (e : Elevator) : Bool :=
  decide (e.direction = .IDLE ∧ e.up_stops = [] ∧ e.down_stops = [])

/-- `ElevatorState.total_pending_stops`: the two pending stop sets are
duplicate-free, so list lengths are the set sizes. -/
def Elevator.total_pending_stops (e : Elevator) : Nat :=
  e.up_stops.length + e.down_stops.length

/-- `ElevatorState.distance_to`. -/
def Elevator.distance_to (e : Elevator) (floor : Int) : Int :=
  |e.current_floor - floor|

/-- `LookDispatchStrategy._calculate_score`, with the float constants
embedded as the exact rationals they denote in the source
(`0.5 = 1/2`, `1.5 = 3/2`, `2.0 = 2`, `0.3 = 3/10`, `0.8 = 4/5`). -/
def calculate_score (e : Elevator) (pickup_floor : Int) (request_direction : Direction) : ℚ :=
  let score : ℚ := ((e.distance_to pickup_floor : Int) : ℚ)
  if e.is_idle then score + (e.total_pending_stops : ℚ) * (1/2)
  else
    let score1 :=
      match e.direction with
      | .UP =>
        if pickup_floor ≥ e.current_floor then
          if request_direction = .UP then score * (1/2) else score * (3/2)
        else score * 2
      | .DOWN =>
        if pickup_floor ≤ e.current_floor then
          if request_direction = .DOWN then score * (1/2) else score * (3/2)
        else score * 2
      | .IDLE => score
    let score2 := score1 + (e.total_pending_stops : ℚ) * (3/10)
    if (e.current_load : ℚ) ≥ (e.capacity : ℚ) * (4/5) then score2 * (3/2) else score2

/-- The LOOK-score cost exactly as the spec describes it: base cost is the
distance to the pickup; an idle car adds `0.5 × pendingStopCount`; a moving
car multiplies the distance by `0.5` (moving toward the pickup, same
direction as the request), `1.5` (toward the pickup, opposite direction) or
`2.0` (moving away), then adds `0.3 × pendingStopCount`; finally the total
is multiplied by `1.5` when `load ≥ 0.8 × capacity`.  (A non-idle car whose
direction field is `IDLE` is outside the spec's two cases and keeps the
bare distance, as the code does.) -/
def specLookCost (e : Elevator) (pickup_floor : Int) (request_direction : Direction) : ℚ :=
  let distance : ℚ := ((e.distance_to pickup_floor : Int) : ℚ)
  if e.is_idle then distance + (1/2) * (e.total_pending_stops : ℚ)
  else
    let toward : Prop :=
      (e.direction = .UP ∧ pickup_floor ≥ e.current_floor) ∨
      (e.direction = .DOWN ∧ pickup_floor ≤ e.current_floor)
    let multiplier : ℚ :=
      if e.direction = .IDLE then 1
      else if toward ∧ request_direction = e.direction then 1/2
      else if toward then 3/2
      else 2
    let busy := distance * multiplier + (3/10) * (e.total_pending_stops : ℚ)
    if (e.current_load : ℚ) ≥ (4/5) * (e.capacity : ℚ) then busy * (3/2) else busy

/-- The selection loop of `LookDispatchStrategy.select_elevator`: the
accumulator `none` plays the role of `best_score = inf` (the first
candidate always replaces it, since every score is finite). -/
def selectLoop (r : Request) : Option (Elevator × ℚ) → List Elevator → Option (Elevator × ℚ)
  | best, [] => best
  | best, e :: rest =>
    let score := calculate_score e r.pickup_floor r.direction
    match best with
    | none => selectLoop r (some (e, score)) rest
    | some (b, bs) =>
      if score < bs then selectLoop r (some (e, score)) rest
      else selectLoop r (some (b, bs)) rest

/-- `LookDispatchStrategy.select_elevator`. -/
def look_select_elevator (r : Request) (elevators : List Elevator) : Option Elevator :=
  let compatible := elevators.filter (fun e => e.can_accept_request r)
  if compatible.isEmpty then none
  else (selectLoop r none compatible).map Prod.fst

/-- The round-robin loop of `FCFSDispatchStrategy.select_elevator`, with
the rotating index threaded explicitly (it is `self._next_index` in the
source).  Python's `elevators[idx] in compatible` tests, by object
identity, whether the car at `idx` passed the `can_accept_request`
filter. -/
def fcfsLoop (r : Request) (elevators : List Elevator) (n : Nat) :
    Nat → Nat → Option Elevator × Nat
  | 0, next_index => (none, next_index)
  | fuel + 1, next_index =>
    let idx := next_index % n
    let advanced := (next_index + 1) % n
    match elevators[idx]? with
    | some e =>
      if e.can_accept_request r then (some e, advanced)
      else fcfsLoop r elevators n fuel advanced
    | none => fcfsLoop r elevators n fuel advanced

/-- `FCFSDispatchStrategy.select_elevator`: rotate over the full fleet for
at most one full turn; fall back to the first compatible car. -/
def fcfs_select_elevator (r : Request) (elevators : List Elevator) (next_index : Nat) :
    Option Elevator × Nat :=
  match elevators.filter (fun e => e.can_accept_request r) with
  | [] => (none, next_index)
  | c :: _ =>
    match fcfsLoop r elevators elevators.length elevators.length next_index with
    | (some e, ni) => (some e, ni)
    | (none, ni) => (some c, ni)

/-- A fresh `FCFSDispatchStrategy` instance run over a list of requests in
submission order, recording the id of the selected car for each. -/
def fcfsRun (elevators : List Elevator) : Nat → List Request → List (Option Int)
  | _, [] => []
  | next_index, r :: rs =>
    let p := fcfs_select_elevator r elevators next_index
    (p.1.map Elevator.elevator_id) :: fcfsRun elevators p.2 rs

/-- `ElevatorSystemBuilder.with_elevators` validation: `none` exactly when
the Python method raises.  The `start_floors and len(start_floors) != count`
guard skips the length check for a *falsy* (absent or empty) list. -/
def with_elevators? (count : Int) (capacity : Int) (start_floors : Option (List Int)) :
    Option (Int × Int × Option (List Int)) :=
  if count < 1 then none
  else if capacity < 1 then none
  else
    match start_floors with
    | some fs =>
      if fs ≠ [] ∧ (fs.length : Int) ≠ count then none
      else some (count, capacity, some fs)
    | none => some (count, capacity, none)

/-- States reachable from a validated constructor call by any sequence of
`add_request` (with arguments that `Request.__post_init__` lets exist)
and `step` calls. -/
inductive Reachable : Elevator → Prop where
  | init (elevator_id min_floor max_floor capacity start_floor : Int)
      (h1 : min_floor ≤ start_floor) (h2 : start_floor ≤ max_floor)
      (h3 : 1 ≤ capacity) :
      Reachable (mkElevator elevator_id min_floor max_floor capacity start_floor)
  | add (e : Elevator) (r : Request) (he : Reachable e)
      (h1 : r.pickup_floor ≠ r.destination_floor) (h2 : 1 ≤ r.passengers) :
      Reachable (e.add_request r).1
  | step (e : Elevator) (he : Reachable e) : Reachable e.step

lemma can_accept_request_iff (e : Elevator) (r : Request) :
    e.can_accept_request r = true ↔
      (e.min_floor ≤ r.pickup_floor ∧ r.pickup_floor ≤ e.max_floor ∧
       e.min_floor ≤ r.destination_floor ∧ r.destination_floor ≤ e.max_floor ∧
       r.passengers ≤ e.capacity) := by
  unfold Elevator.can_accept_request
  split_ifs with h1 h2 h3 <;> simp <;> omega

/-- C1: `add_request` returns `true` iff both request floors lie within
`[min_floor, max_floor]` and the passenger count is at most the capacity
(the current load does not appear in the condition); when it returns
`false` the elevator is returned unchanged. -/
theorem add_request_success_iff (e : Elevator) (r : Request) :
    ((e.add_request r).2 = true ↔
      (e.min_floor ≤ r.pickup_floor ∧ r.pickup_floor ≤ e.max_floor ∧
       e.min_floor ≤ r.destination_floor ∧ r.destination_floor ≤ e.max_floor ∧
       r.passengers ≤ e.capacity)) ∧
    ((e.add_request r).2 = false → (e.add_request r).1 = e) := by
  constructor
  · rw [← can_accept_request_iff]
    unfold Elevator.add_request
    by_cases hc : e.can_accept_request r = true <;> simp [hc]
  · unfold Elevator.add_request
    by_cases hc : e.can_accept_request r = true <;> simp [hc]

/-- Witness for C1 at a concrete rejected request (pickup floor 20 is out
of the range `[0, 10]`): the elevator is returned unchanged. -/
theorem add_request_success_iff_witness :
    ((mkElevator 0 0 10 8 0).add_request ⟨1, 20, 5, 1⟩).1 = mkElevator 0 0 10 8 0 :=
  (add_request_success_iff (mkElevator 0 0 10 8 0) ⟨1, 20, 5, 1⟩).2 (by decide)

/-- C9 counterexample: construction does *not* raise exactly for the listed
conditions.  `with_elevators` accepts `count = 3` with the mismatched
empty start-floor list `[]` (Python's `start_floors and ...` guard skips a
falsy list), and it rejects `count = 0`, a condition the claim does not
list. -/
theorem construction_validation_counterexample :
    with_elevators? 3 8 (some []) ≠ none ∧ with_elevators? 0 8 none = none := by
  decide

/-- C9 (amended): `Elevator.__init__` raises exactly for `min_floor >
max_floor`, `start_floor` outside `[min_floor, max_floor]` or
`capacity < 1`; `Request.__post_init__` raises exactly for `pickup =
destination` or `passengers < 1`; `with_elevators` raises exactly for a
car count `< 1`, a capacity `< 1`, or a *non-empty* start-floor list whose
length differs from the car count (an empty list is treated as absent). -/
theorem construction_validation_amended :
    (∀ eid mn mx cap start : Int,
      initElevator? eid mn mx cap start = none ↔
        (mn > mx ∨ ¬ (mn ≤ start ∧ start ≤ mx) ∨ cap < 1)) ∧
    (∀ (p d n : Int) (i : Nat),
      mkRequest? p d n i = none ↔ (p = d ∨ n < 1)) ∧
    (∀ (c cap : Int) (fs : Option (List Int)),
      with_elevators? c cap fs = none ↔
        (c < 1 ∨ cap < 1 ∨ ∃ l, fs = some l ∧ l ≠ [] ∧ (l.length : Int) ≠ c)) := by
  refine ⟨fun eid mn mx cap start => ?_, fun p d n i => ?_, fun c cap fs => ?_⟩
  · unfold initElevator?
    split_ifs <;> simp_all
  · unfold mkRequest?
    split_ifs <;> simp_all
  · unfold with_elevators?
    rcases fs with _ | l <;> split_ifs <;> simp_all <;>
      first
        | omega
        | (constructor
           · intro hl
             exact Or.inr (Or.inr hl)
           · rintro (h | h | h) <;> first | omega | exact h)

/-- The two requests of the C2 scenario: request 1 rides from floor 1 to
floor 5, request 2 wants floor 2 to floor 5; the car has capacity 1. -/
def c2Request1 : Request := ⟨1, 1, 5, 1⟩

def c2Request2 : Request := ⟨2, 2, 5, 1⟩

def c2Car : Elevator :=
  (((mkElevator 0 0 10 1 0).add_request c2Request1).1.add_request c2Request2).1

/-- C2 counterexample: with capacity 1, after the car boards request 1 at
floor 1 and reaches request 2's pickup floor 2 (step 2), request 2 cannot
board; contrary to the claim its pickup floor is *not* left pending (floor
2 is in neither stop set) while request 2 is still active with load 1, and
three steps later request 2 has been completed and removed although its
passengers never boarded (the load never exceeds 1 and ends at 0). -/
theorem capacity_blocked_pickup_counterexample :
    ((2 : Int) ∉ c2Car.step.step.up_stops ∧ (2 : Int) ∉ c2Car.step.step.down_stops) ∧
    c2Request2 ∈ c2Car.step.step.active_requests ∧
    c2Car.step.step.current_load = 1 ∧
    c2Request2 ∉ c2Car.step.step.step.step.step.active_requests ∧
    c2Car.step.step.step.current_load ≤ 1 ∧
    c2Car.step.step.step.step.current_load ≤ 1 ∧
    c2Car.step.step.step.step.step.current_load = 0 := by
  decide

/-- The stop set that serves a request travelling in direction `d`, given
the two pending stop lists (`add_request` files both floors of a request
under the set of the request's own direction; a request's direction is
never `IDLE`). -/
def dirStops (up down : List Int) : Direction → List Int
  | .UP => up
  | .DOWN => down
  | .IDLE => []

/-- The inductive invariant of a reachable car. -/
structure Inv (e : Elevator) : Prop where
  cap_pos : 1 ≤ e.capacity
  floor_range : e.min_floor ≤ e.max_floor
  load_nonneg : 0 ≤ e.current_load
  load_le_cap : e.current_load ≤ e.capacity
  floor_lb : e.min_floor ≤ e.current_floor
  floor_ub : e.current_floor ≤ e.max_floor
  door_closed : e.door_state = DoorState.CLOSED
  up_nodup : e.up_stops.Nodup
  down_nodup : e.down_stops.Nodup
  active_ok : ∀ r ∈ e.active_requests,
    1 ≤ r.passengers ∧
      r.destination_floor ∈ dirStops e.up_stops e.down_stops r.direction

lemma mem_addStop_self (f : Int) (s : List Int) : f ∈ addStop f s := by
  unfold addStop; split_ifs with h
  · exact h
  · exact List.mem_cons_self f s

lemma mem_addStop_of_mem {g : Int} (f : Int) {s : List Int} (h : g ∈ s) :
    g ∈ addStop f s := by
  unfold addStop; split_ifs
  · exact h
  · exact List.mem_cons_of_mem f h

lemma addStop_nodup {f : Int} {s : List Int} (h : s.Nodup) : (addStop f s).Nodup := by
  unfold addStop; split_ifs with hf
  · exact h
  · exact List.nodup_cons.2 ⟨hf, h⟩

lemma request_direction_ne_idle (r : Request) : r.direction ≠ .IDLE := by
  unfold Request.direction; split_ifs <;> simp

lemma add_request_not_accept (e : Elevator) (r : Request)
    (hc : ¬ e.can_accept_request r = true) : e.add_request r = (e, false) := by
  unfold Elevator.add_request
  simp [hc]

lemma dirStops_mono {up down up' down' : List Int}
    (hu : ∀ x, x ∈ up → x ∈ up') (hd : ∀ x, x ∈ down → x ∈ down') (d : Direction) :
    ∀ x, x ∈ dirStops up down d → x ∈ dirStops up' down' d := by
  cases d <;> simp [dirStops] <;> intro x hx
  · exact hu x hx
  · exact hd x hx

lemma inv_add_request (e : Elevator) (r : Request) (hI : Inv e) (hp : 1 ≤ r.passengers) :
    Inv (e.add_request r).1 := by
  by_cases hc : e.can_accept_request r = true
  · have hself : r.destination_floor ∈
        addStop r.destination_floor (addStop r.pickup_floor (dirStops e.up_stops e.down_stops r.direction)) :=
      mem_addStop_self _ _
    obtain ⟨cap_pos, floor_range, load_nonneg, load_le_cap, floor_lb, floor_ub,
      door_closed, up_nodup, down_nodup, active_ok⟩ := hI
    unfold Elevator.add_request
    rw [if_neg (by simp [hc])]
    by_cases hdup : (e.active_requests.any fun r' => decide (r'.id = r.id)) = true <;>
      by_cases hdr : r.direction = Direction.UP <;>
      simp only [hdup, hdr, Bool.false_eq_true, if_true, if_false, reduceIte] <;>
      split_ifs <;>
      constructor <;> try assumption
    all_goals try exact addStop_nodup (addStop_nodup up_nodup)
    all_goals try exact addStop_nodup (addStop_nodup down_nodup)
    all_goals intro q hq
    all_goals try
      (refine ⟨(active_ok q hq).1, ?_⟩
       refine dirStops_mono (fun x hx => ?_) (fun x hx => ?_) q.direction _
         (active_ok q hq).2 <;>
         first
           | exact hx
           | exact mem_addStop_of_mem _ (mem_addStop_of_mem _ hx))
    all_goals rcases List.mem_cons.1 hq with hq' | hq'
    all_goals try
      (refine ⟨(active_ok q hq').1, ?_⟩
       refine dirStops_mono (fun x hx => ?_) (fun x hx => ?_) q.direction _
         (active_ok q hq').2 <;>
         first
           | exact hx
           | exact mem_addStop_of_mem _ (mem_addStop_of_mem _ hx))
    all_goals subst hq'
    all_goals refine ⟨hp, ?_⟩
    all_goals first
      | (rw [hdr] at hself ⊢; simpa [dirStops] using hself)
      | (have hdn : q.direction = Direction.DOWN := by
           rcases hq2 : q.direction with _ | _ | _
           · exact absurd hq2 hdr
           · rfl
           · exact absurd hq2 (request_direction_ne_idle q)
         rw [hdn] at hself ⊢
         simpa [dirStops] using hself)
  · rw [add_request_not_accept e r hc]
    exact hI

lemma processRequests_load_bounds (floor cap : Int) :
    ∀ (rs : List Request) (load : Int), 0 ≤ load → load ≤ cap →
      (∀ r ∈ rs, 1 ≤ r.passengers) →
      0 ≤ (processRequests floor cap rs load).1 ∧
        (processRequests floor cap rs load).1 ≤ cap := by
  intro rs
  induction rs with
  | nil =>
    intro load h0 h1 _
    simpa [processRequests] using ⟨h0, h1⟩
  | cons r rest ih =>
    intro load h0 h1 hall
    have hr : 1 ≤ r.passengers := hall r (List.mem_cons_self r rest)
    have hrest : ∀ q ∈ rest, 1 ≤ q.passengers :=
      fun q hq => hall q (List.mem_cons_of_mem r hq)
    have hcap0 : (0 : Int) ≤ cap := le_trans h0 h1
    simp only [processRequests]
    split_ifs with c1 c2 c3
    · exact ih (max 0 (load - r.passengers)) (le_max_left 0 _)
        (max_le hcap0 (by omega)) hrest
    · exact ih (load + r.passengers) (by omega) c3 hrest
    · exact ih load h0 h1 hrest
    · exact ih load h0 h1 hrest

lemma processRequests_completed (floor cap : Int) :
    ∀ (rs : List Request) (load : Int) (r : Request), r ∈ rs →
      r.destination_floor = floor →
      r.id ∈ (processRequests floor cap rs load).2 := by
  intro rs
  induction rs with
  | nil =>
    intro load r h
    cases h
  | cons q rest ih =>
    intro load r hmem hdest
    simp only [processRequests]
    rcases List.mem_cons.1 hmem with rfl | hmem'
    · rw [if_pos hdest]
      exact List.mem_cons_self _ _
    · split_ifs with c1 c2 c3
      · exact List.mem_cons_of_mem _ (ih _ r hmem' hdest)
      · exact ih _ r hmem' hdest
      · exact ih _ r hmem' hdest
      · exact ih _ r hmem' hdest

lemma active_ok_after_filter (floor cap load : Int)
    (up down up' down' : List Int) (active : List Request)
    (active_ok : ∀ r ∈ active, 1 ≤ r.passengers ∧
      r.destination_floor ∈ dirStops up down r.direction)
    (hup : ∀ x, x ∈ up → x ≠ floor → x ∈ up')
    (hdown : ∀ x, x ∈ down → x ≠ floor → x ∈ down') :
    ∀ q ∈ active.filter (fun r => decide (r.id ∉
        (processRequests floor cap (active.filter
          (fun r => decide (r.pickup_floor = floor ∨ r.destination_floor = floor)))
          load).2)),
      1 ≤ q.passengers ∧ q.destination_floor ∈ dirStops up' down' q.direction := by
  intro q hq
  obtain ⟨hqa, hqid⟩ := List.mem_filter.1 hq
  rw [decide_eq_true_eq] at hqid
  obtain ⟨h1, h2⟩ := active_ok q hqa
  refine ⟨h1, ?_⟩
  have hne : q.destination_floor ≠ floor := by
    intro heq
    exact hqid (processRequests_completed floor cap _ load q
      (List.mem_filter.2 ⟨hqa, by simp [heq]⟩) heq)
  rcases hqd : q.direction with _ | _ | _ <;> rw [hqd] at h2
  · exact hup _ h2 hne
  · exact hdown _ h2 hne
  · exact absurd h2 (by simp [dirStops])

lemma inv_process_current_floor (e : Elevator) (hI : Inv e) :
    Inv e.process_current_floor := by
  obtain ⟨cap_pos, floor_range, load_nonneg, load_le_cap, floor_lb, floor_ub,
    door_closed, up_nodup, down_nodup, active_ok⟩ := hI
  have hall : ∀ q ∈ e.active_requests.filter
      (fun r => decide (r.pickup_floor = e.current_floor ∨
        r.destination_floor = e.current_floor)), 1 ≤ q.passengers :=
    fun q hq => (active_ok q (List.mem_filter.1 hq).1).1
  have hload := processRequests_load_bounds e.current_floor e.capacity _
    e.current_load load_nonneg load_le_cap hall
  simp only [Elevator.process_current_floor]
  split_ifs with c1 c2
  · exact ⟨cap_pos, floor_range, hload.1, hload.2, floor_lb, floor_ub, rfl,
      up_nodup.erase _, down_nodup,
      active_ok_after_filter _ _ _ _ _ _ _ _ active_ok
        (fun x hx hne => (List.mem_erase_of_ne hne).2 hx)
        (fun x hx _ => hx)⟩
  · exact ⟨cap_pos, floor_range, hload.1, hload.2, floor_lb, floor_ub, rfl,
      up_nodup, down_nodup.erase _,
      active_ok_after_filter _ _ _ _ _ _ _ _ active_ok
        (fun x hx _ => hx)
        (fun x hx hne => (List.mem_erase_of_ne hne).2 hx)⟩
  · exact ⟨cap_pos, floor_range, hload.1, hload.2, floor_lb, floor_ub, rfl,
      up_nodup, down_nodup,
      active_ok_after_filter _ _ _ _ _ _ _ _ active_ok
        (fun x hx _ => hx)
        (fun x hx _ => hx)⟩

lemma inv_move (e : Elevator) (hI : Inv e) : Inv e.move := by
  obtain ⟨cap_pos, floor_range, load_nonneg, load_le_cap, floor_lb, floor_ub,
    door_closed, up_nodup, down_nodup, active_ok⟩ := hI
  rcases hd : e.direction with _ | _ | _ <;>
    simp only [Elevator.move, hd] <;>
    try split_ifs with hm
  all_goals
    refine ⟨cap_pos, floor_range, load_nonneg, load_le_cap, ?_, ?_,
      door_closed, up_nodup, down_nodup, active_ok⟩
  all_goals dsimp only
  all_goals omega

lemma inv_update_direction (e : Elevator) (hI : Inv e) : Inv e.update_direction := by
  obtain ⟨cap_pos, floor_range, load_nonneg, load_le_cap, floor_lb, floor_ub,
    door_closed, up_nodup, down_nodup, active_ok⟩ := hI
  rcases hd : e.direction with _ | _ | _ <;>
    simp only [Elevator.update_direction, hd] <;>
    try split_ifs
  all_goals
    exact ⟨cap_pos, floor_range, load_nonneg, load_le_cap, floor_lb, floor_ub,
      door_closed, up_nodup, down_nodup, active_ok⟩

lemma inv_after_stop (e : Elevator) (hI : Inv e) :
    Inv (if e.is_current_floor_a_stop then e.process_current_floor else e) := by
  split_ifs
  · exact inv_process_current_floor e hI
  · exact hI

lemma inv_stepCore (e : Elevator) (hI : Inv e) : Inv e.stepCore := by
  have h1 := inv_after_stop e hI
  show Inv
    (if (if e.is_current_floor_a_stop then e.process_current_floor else e).has_pending_stops then
      (if ((if e.is_current_floor_a_stop then e.process_current_floor else e).move).is_current_floor_a_stop
        then ((if e.is_current_floor_a_stop then e.process_current_floor else e).move).process_current_floor
        else (if e.is_current_floor_a_stop then e.process_current_floor else e).move)
     else (if e.is_current_floor_a_stop then e.process_current_floor else e))
  generalize (if e.is_current_floor_a_stop then e.process_current_floor else e) = e1 at h1 ⊢
  split_ifs with h2 h3
  · exact inv_process_current_floor _ (inv_move _ h1)
  · exact inv_move _ h1
  · exact h1

lemma inv_step (e : Elevator) (hI : Inv e) : Inv e.step := by
  unfold Elevator.step
  split_ifs
  · exact hI
  · exact inv_update_direction _ (inv_stepCore e hI)

/-- Every reachable car state satisfies the inductive invariant. -/
theorem reachable_inv {e : Elevator} (h : Reachable e) : Inv e := by
  induction h with
  | init eid mn mx cap st h1 h2 h3 =>
    refine ⟨h3, le_trans h1 h2, le_refl 0, ?_, h1, h2, rfl,
      List.nodup_nil, List.nodup_nil, by intro r hr; cases hr⟩
    show (0 : Int) ≤ cap
    omega
  | add e r he h1 h2 ih => exact inv_add_request e r ih h2
  | step e he ih => exact inv_step e ih

/-- A small concrete reachable car used by the invariant witnesses: built
at floor 0 over the range `[0, 10]` with capacity 8, then given the
request `3 → 7` with 2 passengers. -/
def demoCar : Elevator := ((mkElevator 3 0 10 8 0).add_request ⟨11, 3, 7, 2⟩).1

lemma demoCar_reachable : Reachable demoCar :=
  Reachable.add _ _ (Reachable.init 3 0 10 8 0 (by norm_num) (by norm_num)
    (by norm_num)) (by norm_num) (by norm_num)

/-- C4: in every reachable car state, every request in the active map
still has one of its two floors pending in the stop set of the request's
travel direction (in fact the destination floor always is, until the
request is delivered and removed). -/
theorem active_request_has_pending_stop (e : Elevator) (he : Reachable e) :
    ∀ r ∈ e.active_requests,
      r.pickup_floor ∈ dirStops e.up_stops e.down_stops r.direction ∨
      r.destination_floor ∈ dirStops e.up_stops e.down_stops r.direction :=
  fun r hr => Or.inr (((reachable_inv he).active_ok r hr).2)

/-- Witness for C4 on the concrete reachable `demoCar`. -/
theorem active_request_has_pending_stop_witness :
    (Request.pickup_floor ⟨11, 3, 7, 2⟩) ∈
        dirStops demoCar.up_stops demoCar.down_stops (Request.direction ⟨11, 3, 7, 2⟩) ∨
    (Request.destination_floor ⟨11, 3, 7, 2⟩) ∈
        dirStops demoCar.up_stops demoCar.down_stops (Request.direction ⟨11, 3, 7, 2⟩) :=
  active_request_has_pending_stop demoCar demoCar_reachable ⟨11, 3, 7, 2⟩ (by decide)

/-- C7: in every reachable car state the load lies in `[0, capacity]`. -/
theorem load_within_capacity (e : Elevator) (he : Reachable e) :
    0 ≤ e.current_load ∧ e.current_load ≤ e.capacity :=
  ⟨(reachable_inv he).load_nonneg, (reachable_inv he).load_le_cap⟩

/-- Witness for C7 on the concrete reachable `demoCar`. -/
theorem load_within_capacity_witness :
    0 ≤ demoCar.current_load ∧ demoCar.current_load ≤ demoCar.capacity :=
  load_within_capacity demoCar demoCar_reachable

/-- C8: in every reachable car state the current floor lies in
`[min_floor, max_floor]`. -/
theorem floor_within_range (e : Elevator) (he : Reachable e) :
    e.min_floor ≤ e.current_floor ∧ e.current_floor ≤ e.max_floor :=
  ⟨(reachable_inv he).floor_lb, (reachable_inv he).floor_ub⟩

/-- Witness for C8 on the concrete reachable `demoCar`. -/
theorem floor_within_range_witness :
    demoCar.min_floor ≤ demoCar.current_floor ∧
      demoCar.current_floor ≤ demoCar.max_floor :=
  floor_within_range demoCar demoCar_reachable

/-- C10: in every reachable car state (after construction, after every
`add_request` and after every completed `step`) the doors are CLOSED;
they open and close only inside the arrival processing of a single
step. -/
theorem doors_closed_between_operations (e : Elevator) (he : Reachable e) :
    e.door_state = DoorState.CLOSED :=
  (reachable_inv he).door_closed

/-- Witness for C10 on the concrete reachable `demoCar`. -/
theorem doors_closed_between_operations_witness :
    demoCar.door_state = DoorState.CLOSED :=
  doors_closed_between_operations demoCar demoCar_reachable

/-- The direction recomputation exactly as the spec states it: keep the
current direction if its stop set holds a floor strictly ahead; otherwise
reverse if the opposite direction's stop set is non-empty; otherwise
reverse if the current direction's own set still holds stops behind the
car; otherwise go IDLE. -/
def specNextDirection (e : Elevator) : Direction :=
  match e.direction with
  | .UP =>
    if ∃ f ∈ e.up_stops, e.current_floor < f then .UP
    else if e.down_stops ≠ [] then .DOWN
    else if ∃ f ∈ e.up_stops, f < e.current_floor then .DOWN
    else .IDLE
  | .DOWN =>
    if ∃ f ∈ e.down_stops, f < e.current_floor then .DOWN
    else if e.up_stops ≠ [] then .UP
    else if ∃ f ∈ e.down_stops, e.current_floor < f then .UP
    else .IDLE
  | .IDLE => .IDLE

lemma process_direction (e : Elevator) :
    e.process_current_floor.direction = e.direction := by
  simp only [Elevator.process_current_floor]
  split_ifs <;> rfl

lemma process_floor (e : Elevator) :
    e.process_current_floor.current_floor = e.current_floor := by
  simp only [Elevator.process_current_floor]
  split_ifs <;> rfl

lemma process_up_stops (e : Elevator) :
    e.process_current_floor.up_stops =
      if e.direction = .UP ∧ e.current_floor ∈ e.up_stops
      then e.up_stops.erase e.current_floor else e.up_stops := by
  simp only [Elevator.process_current_floor]
  split_ifs <;> rfl

lemma process_down_stops (e : Elevator) :
    e.process_current_floor.down_stops =
      if e.direction = .DOWN ∧ e.current_floor ∈ e.down_stops
      then e.down_stops.erase e.current_floor else e.down_stops := by
  simp only [Elevator.process_current_floor]
  split_ifs with h1 h2 <;> try rfl
  exact absurd h1.1 (by simp [h2.1])

/-- Only requests whose destination is the processed floor are ever
completed by the passenger loop. -/
lemma processRequests_completed_sub (floor cap : Int) :
    ∀ (rs : List Request) (load : Int) (i : Nat),
      i ∈ (processRequests floor cap rs load).2 →
      ∃ q ∈ rs, q.id = i ∧ q.destination_floor = floor := by
  intro rs
  induction rs with
  | nil =>
    intro load i h
    simp [processRequests] at h
  | cons q rest ih =>
    intro load i h
    simp only [processRequests] at h
    split_ifs at h with c1 c2 c3
    · rcases List.mem_cons.1 h with rfl | h'
      · exact ⟨q, List.mem_cons_self q rest, rfl, c1⟩
      · obtain ⟨q', hq', hid, hdest⟩ := ih _ i h'
        exact ⟨q', List.mem_cons_of_mem q hq', hid, hdest⟩
    · obtain ⟨q', hq', hid, hdest⟩ := ih _ i h
      exact ⟨q', List.mem_cons_of_mem q hq', hid, hdest⟩
    · obtain ⟨q', hq', hid, hdest⟩ := ih _ i h
      exact ⟨q', List.mem_cons_of_mem q hq', hid, hdest⟩
    · obtain ⟨q', hq', hid, hdest⟩ := ih _ i h
      exact ⟨q', List.mem_cons_of_mem q hq', hid, hdest⟩

lemma process_active_requests (e : Elevator) :
    e.process_current_floor.active_requests =
      e.active_requests.filter (fun q => decide (q.id ∉
        (processRequests e.current_floor e.capacity
          (e.active_requests.filter (fun q2 => decide
            (q2.pickup_floor = e.current_floor ∨
             q2.destination_floor = e.current_floor)))
          e.current_load).2)) := by
  simp only [Elevator.process_current_floor]
  split_ifs <;> rfl

/-- C2 (amended): when the car processes an arrival floor, in either sweep
direction: a request at that floor whose destination is elsewhere is never
rejected — it stays in the floor-to-requests map whatever the capacity
situation; the floor is removed from the sweep direction's stop set
regardless of whether waiting passengers fit; and in the passenger loop a
pickup whose passengers do not fit at its turn (`load + passengers >
capacity`) boards nothing and is not completed — the loop behaves as if
the request were skipped.  Nothing re-queues the pickup floor, so the
blocked request's passengers board on a later visit only if another
request re-adds that floor; otherwise the request is completed at its
destination without its passengers ever boarding, as the counterexample
shows. -/
theorem capacity_blocked_pickup_amended :
    (∀ (e : Elevator) (r : Request),
      (∀ q ∈ e.active_requests, q.id = r.id → q = r) →
      r ∈ e.active_requests →
      r.destination_floor ≠ e.current_floor →
      r ∈ e.process_current_floor.active_requests) ∧
    (∀ e : Elevator, e.direction = .UP → e.up_stops.Nodup →
      e.current_floor ∉ e.process_current_floor.up_stops) ∧
    (∀ e : Elevator, e.direction = .DOWN → e.down_stops.Nodup →
      e.current_floor ∉ e.process_current_floor.down_stops) ∧
    (∀ (floor cap load : Int) (rest : List Request) (r : Request),
      r.destination_floor ≠ floor → r.pickup_floor = floor →
      ¬ (load + r.passengers ≤ cap) →
      processRequests floor cap (r :: rest) load =
        processRequests floor cap rest load) := by
  refine ⟨?_, ?_, ?_, ?_⟩
  · intro e r hid hr hdest
    rw [process_active_requests]
    refine List.mem_filter.2 ⟨hr, ?_⟩
    rw [decide_eq_true_eq]
    intro hmem
    obtain ⟨q, hq, hqid, hqdest⟩ := processRequests_completed_sub
      e.current_floor e.capacity _ e.current_load r.id hmem
    have hq' : q ∈ e.active_requests := (List.mem_filter.1 hq).1
    have hqr : q = r := hid q hq' hqid
    rw [hqr] at hqdest
    exact hdest hqdest
  · intro e hd hnd
    rw [process_up_stops]
    split_ifs with hc
    · exact hnd.not_mem_erase
    · intro hmem
      exact hc ⟨hd, hmem⟩
  · intro e hd hnd
    rw [process_down_stops]
    split_ifs with hc
    · exact hnd.not_mem_erase
    · intro hmem
      exact hc ⟨hd, hmem⟩
  · intro floor cap load rest r hdest hpick hcap
    show (if r.destination_floor = floor then _ else _) = _
    rw [if_neg hdest, if_pos hpick, if_neg hcap]

/-- A concrete full car sweeping DOWN at floor 5 with a blocked pickup
request 5 → 2 (capacity 1, load 1), for the amended C2 witness. -/
def blockedDemoCar : Elevator :=
  { elevator_id := 0, min_floor := 0, max_floor := 10, capacity := 1,
    current_floor := 5, direction := .DOWN, door_state := .CLOSED,
    current_load := 1, up_stops := [], down_stops := [5, 2],
    active_requests := [⟨2, 5, 2, 1⟩] }

/-- Witness for the amended C2 on a DOWN-sweep car: the blocked request
survives processing, floor 5 leaves the down stop set, and the passenger
loop treats the blocked pickup as skipped. -/
theorem capacity_blocked_pickup_amended_witness :
    (⟨2, 5, 2, 1⟩ : Request) ∈
      blockedDemoCar.process_current_floor.active_requests ∧
    blockedDemoCar.current_floor ∉
      blockedDemoCar.process_current_floor.down_stops ∧
    processRequests 5 1 [⟨2, 5, 2, 1⟩] 1 = processRequests 5 1 [] 1 :=
  ⟨capacity_blocked_pickup_amended.1 blockedDemoCar ⟨2, 5, 2, 1⟩
      (by decide) (by decide) (by decide),
   capacity_blocked_pickup_amended.2.2.1 blockedDemoCar (by decide) (by decide),
   capacity_blocked_pickup_amended.2.2.2 5 1 1 [] ⟨2, 5, 2, 1⟩
      (by decide) (by decide) (by decide)⟩

lemma move_direction (e : Elevator) : e.move.direction = e.direction := by
  rcases hd : e.direction with _ | _ | _ <;>
    simp only [Elevator.move, hd] <;>
    split_ifs <;> simp [hd]

lemma move_up_stops (e : Elevator) : e.move.up_stops = e.up_stops := by
  rcases hd : e.direction with _ | _ | _ <;>
    simp only [Elevator.move, hd] <;>
    split_ifs <;> rfl

lemma move_down_stops (e : Elevator) : e.move.down_stops = e.down_stops := by
  rcases hd : e.direction with _ | _ | _ <;>
    simp only [Elevator.move, hd] <;>
    split_ifs <;> rfl

lemma is_stop_up_iff (e : Elevator) (hd : e.direction = .UP) :
    e.is_current_floor_a_stop = true ↔ e.current_floor ∈ e.up_stops := by
  simp [Elevator.is_current_floor_a_stop, hd]

lemma is_stop_down_iff (e : Elevator) (hd : e.direction = .DOWN) :
    e.is_current_floor_a_stop = true ↔ e.current_floor ∈ e.down_stops := by
  simp [Elevator.is_current_floor_a_stop, hd]

/-- `stepCore` with its let-bindings expanded. -/
lemma stepCore_eq (e : Elevator) :
    e.stepCore =
      (if (if e.is_current_floor_a_stop then e.process_current_floor else e).has_pending_stops then
        (if ((if e.is_current_floor_a_stop then e.process_current_floor else e).move).is_current_floor_a_stop
          then ((if e.is_current_floor_a_stop then e.process_current_floor else e).move).process_current_floor
          else (if e.is_current_floor_a_stop then e.process_current_floor else e).move)
       else (if e.is_current_floor_a_stop then e.process_current_floor else e)) := rfl

/-- After the processing/moving phase of a step with direction UP, the
current floor is no longer in the up stop set. -/
lemma stepCore_not_mem_up (e : Elevator) (hd : e.direction = .UP)
    (hnd : e.up_stops.Nodup) :
    e.stepCore.direction = .UP ∧
      e.stepCore.current_floor ∉ e.stepCore.up_stops := by
  have phase1 :
      (if e.is_current_floor_a_stop then e.process_current_floor else e).direction = .UP ∧
      (if e.is_current_floor_a_stop then e.process_current_floor else e).up_stops.Nodup ∧
      (if e.is_current_floor_a_stop then e.process_current_floor else e).current_floor ∉
        (if e.is_current_floor_a_stop then e.process_current_floor else e).up_stops := by
    split_ifs with hs
    · refine ⟨by rw [process_direction, hd], ?_, ?_⟩
      · rw [process_up_stops]
        split_ifs
        · exact hnd.erase _
        · exact hnd
      · rw [process_floor, process_up_stops,
          if_pos ⟨hd, (is_stop_up_iff e hd).1 hs⟩]
        exact hnd.not_mem_erase
    · refine ⟨hd, hnd, ?_⟩
      intro hmem
      exact hs ((is_stop_up_iff e hd).2 hmem)
  rw [stepCore_eq]
  generalize hgen : (if e.is_current_floor_a_stop then e.process_current_floor else e) = e1 at phase1
  obtain ⟨p1, p2, p3⟩ := phase1
  split_ifs with hpend hs2
  · have hd2 : e1.move.direction = .UP := by rw [move_direction, p1]
    have hnd2 : e1.move.up_stops.Nodup := by rw [move_up_stops]; exact p2
    refine ⟨by rw [process_direction, hd2], ?_⟩
    rw [process_floor, process_up_stops, if_pos ⟨hd2, (is_stop_up_iff _ hd2).1 hs2⟩]
    exact hnd2.not_mem_erase
  · refine ⟨by rw [move_direction, p1], ?_⟩
    intro hmem
    exact hs2 ((is_stop_up_iff _ (by rw [move_direction, p1])).2 hmem)
  · exact ⟨p1, p3⟩

/-- After the processing/moving phase of a step with direction DOWN, the
current floor is no longer in the down stop set. -/
lemma stepCore_not_mem_down (e : Elevator) (hd : e.direction = .DOWN)
    (hnd : e.down_stops.Nodup) :
    e.stepCore.direction = .DOWN ∧
      e.stepCore.current_floor ∉ e.stepCore.down_stops := by
  have phase1 :
      (if e.is_current_floor_a_stop then e.process_current_floor else e).direction = .DOWN ∧
      (if e.is_current_floor_a_stop then e.process_current_floor else e).down_stops.Nodup ∧
      (if e.is_current_floor_a_stop then e.process_current_floor else e).current_floor ∉
        (if e.is_current_floor_a_stop then e.process_current_floor else e).down_stops := by
    split_ifs with hs
    · refine ⟨by rw [process_direction, hd], ?_, ?_⟩
      · rw [process_down_stops]
        split_ifs
        · exact hnd.erase _
        · exact hnd
      · rw [process_floor, process_down_stops,
          if_pos ⟨hd, (is_stop_down_iff e hd).1 hs⟩]
        exact hnd.not_mem_erase
    · refine ⟨hd, hnd, ?_⟩
      intro hmem
      exact hs ((is_stop_down_iff e hd).2 hmem)
  rw [stepCore_eq]
  generalize hgen : (if e.is_current_floor_a_stop then e.process_current_floor else e) = e1 at phase1
  obtain ⟨p1, p2, p3⟩ := phase1
  split_ifs with hpend hs2
  · have hd2 : e1.move.direction = .DOWN := by rw [move_direction, p1]
    have hnd2 : e1.move.down_stops.Nodup := by rw [move_down_stops]; exact p2
    refine ⟨by rw [process_direction, hd2], ?_⟩
    rw [process_floor, process_down_stops, if_pos ⟨hd2, (is_stop_down_iff _ hd2).1 hs2⟩]
    exact hnd2.not_mem_erase
  · refine ⟨by rw [move_direction, p1], ?_⟩
    intro hmem
    exact hs2 ((is_stop_down_iff _ (by rw [move_direction, p1])).2 hmem)
  · exact ⟨p1, p3⟩

/-- `_update_direction` agrees with the spec's description whenever the
current floor is not in the current direction's own stop set (which
`stepCore` guarantees). -/
lemma update_direction_spec (s : Elevator) :
    (s.direction = .UP → s.current_floor ∉ s.up_stops →
      s.update_direction.direction = specNextDirection s) ∧
    (s.direction = .DOWN → s.current_floor ∉ s.down_stops →
      s.update_direction.direction = specNextDirection s) := by
  constructor
  · intro hsd hmem
    have hex1 : (s.up_stops.filter (fun f => decide (f > s.current_floor)) ≠ []) ↔
        ∃ f ∈ s.up_stops, s.current_floor < f := by
      rw [Ne, List.filter_eq_nil_iff]
      push_neg
      simp
    have hCiff : (¬ ∃ f ∈ s.up_stops, s.current_floor < f) →
        ((s.up_stops ≠ []) ↔ ∃ f ∈ s.up_stops, f < s.current_floor) := by
      intro hA
      constructor
      · intro hne
        rcases hup : s.up_stops with _ | ⟨f, rest⟩
        · exact absurd hup hne
        · have hf : f ∈ s.up_stops := by
            rw [hup]
            exact List.mem_cons_self f rest
          refine ⟨f, List.mem_cons_self f rest, ?_⟩
          rcases lt_trichotomy f s.current_floor with h | h | h
          · exact h
          · exact absurd (h ▸ hf) hmem
          · exact absurd ⟨f, hf, h⟩ hA
      · intro ⟨f, hf, _⟩
        exact List.ne_nil_of_mem hf
    simp only [Elevator.update_direction, specNextDirection, hsd]
    by_cases hA : ∃ f ∈ s.up_stops, s.current_floor < f
    · rw [if_pos (hex1.2 hA), if_pos hA, hsd]
    · rw [if_neg (fun hf => hA (hex1.1 hf)), if_neg hA]
      by_cases hB : s.down_stops ≠ []
      · rw [if_pos hB, if_pos hB]
      · rw [if_neg hB, if_neg hB]
        by_cases hC : ∃ f ∈ s.up_stops, f < s.current_floor
        · rw [if_pos ((hCiff hA).2 hC), if_pos hC]
        · rw [if_neg (fun h => hC ((hCiff hA).1 h)), if_neg hC]
  · intro hsd hmem
    have hex1 : (s.down_stops.filter (fun f => decide (f < s.current_floor)) ≠ []) ↔
        ∃ f ∈ s.down_stops, f < s.current_floor := by
      rw [Ne, List.filter_eq_nil_iff]
      push_neg
      simp
    have hCiff : (¬ ∃ f ∈ s.down_stops, f < s.current_floor) →
        ((s.down_stops ≠ []) ↔ ∃ f ∈ s.down_stops, s.current_floor < f) := by
      intro hA
      constructor
      · intro hne
        rcases hdw : s.down_stops with _ | ⟨f, rest⟩
        · exact absurd hdw hne
        · have hf : f ∈ s.down_stops := by
            rw [hdw]
            exact List.mem_cons_self f rest
          refine ⟨f, List.mem_cons_self f rest, ?_⟩
          rcases lt_trichotomy f s.current_floor with h | h | h
          · exact absurd ⟨f, hf, h⟩ hA
          · exact absurd (h ▸ hf) hmem
          · exact h
      · intro ⟨f, hf, _⟩
        exact List.ne_nil_of_mem hf
    simp only [Elevator.update_direction, specNextDirection, hsd]
    by_cases hA : ∃ f ∈ s.down_stops, f < s.current_floor
    · rw [if_pos (hex1.2 hA), if_pos hA, hsd]
    · rw [if_neg (fun hf => hA (hex1.1 hf)), if_neg hA]
      by_cases hB : s.up_stops ≠ []
      · rw [if_pos hB, if_pos hB]
      · rw [if_neg hB, if_neg hB]
        by_cases hC : ∃ f ∈ s.down_stops, s.current_floor < f
        · rw [if_pos ((hCiff hA).2 hC), if_pos hC]
        · rw [if_neg (fun h => hC ((hCiff hA).1 h)), if_neg hC]

/-- C3: after each step of a non-idle car, the new direction is exactly
the spec's recomputation evaluated on the post-processing/post-move state:
keep the current direction if stops remain strictly ahead; otherwise
reverse if the opposite stop set is non-empty; otherwise reverse if the
own stop set still holds floors behind the car; otherwise go IDLE. -/
theorem step_direction_matches_spec (e : Elevator)
    (hu : e.up_stops.Nodup) (hdn : e.down_stops.Nodup)
    (hi : e.direction ≠ .IDLE) :
    e.step.direction = specNextDirection e.stepCore := by
  have hstep : e.step = e.stepCore.update_direction := by
    unfold Elevator.step
    rw [if_neg hi]
  rw [hstep]
  rcases hd : e.direction with _ | _ | _
  · obtain ⟨p1, p3⟩ := stepCore_not_mem_up e hd hu
    exact (update_direction_spec e.stepCore).1 p1 p3
  · obtain ⟨p1, p3⟩ := stepCore_not_mem_down e hd hdn
    exact (update_direction_spec e.stepCore).2 p1 p3
  · exact absurd hd hi

/-- Witness for C3: a car at floor 0 with an accepted request `1 → 3`
(direction UP); after one step its direction agrees with the spec's
recomputation on the intermediate state. -/
theorem step_direction_matches_spec_witness :
    (((mkElevator 0 0 10 8 0).add_request ⟨21, 1, 3, 1⟩).1.step).direction =
      specNextDirection ((mkElevator 0 0 10 8 0).add_request ⟨21, 1, 3, 1⟩).1.stepCore :=
  step_direction_matches_spec ((mkElevator 0 0 10 8 0).add_request ⟨21, 1, 3, 1⟩).1
    (by decide) (by decide) (by decide)

lemma calculate_score_eq_spec (e : Elevator) (pickup : Int) (rd : Direction) :
    calculate_score e pickup rd = specLookCost e pickup rd := by
  unfold calculate_score specLookCost
  by_cases hidle : e.is_idle = true
  · simp only [hidle, if_true, reduceIte]
    ring
  · simp only [hidle, Bool.false_eq_true, if_false, reduceIte]
    have hloadiff : ((e.current_load : ℚ) ≥ (e.capacity : ℚ) * (4/5)) ↔
        ((e.current_load : ℚ) ≥ (4/5) * (e.capacity : ℚ)) := by rw [mul_comm]
    rcases hd : e.direction with _ | _ | _
    · by_cases htow : pickup ≥ e.current_floor <;>
        by_cases hrd : rd = Direction.UP <;>
        simp only [hd, htow, hrd, reduceCtorEq, true_and, false_and, and_true,
          and_false, or_false, false_or, if_true, if_false, not_true, not_false_iff,
          iff_true, reduceIte, hloadiff] <;>
        split_ifs <;> ring
    · by_cases htow : pickup ≤ e.current_floor <;>
        by_cases hrd : rd = Direction.DOWN <;>
        simp only [hd, htow, hrd, reduceCtorEq, true_and, false_and, and_true,
          and_false, or_false, false_or, if_true, if_false, not_true, not_false_iff,
          iff_true, reduceIte, hloadiff] <;>
        split_ifs <;> ring
    · simp only [hd, reduceCtorEq, true_and, false_and, and_true, and_false,
        or_false, false_or, if_true, reduceIte, hloadiff]
      split_ifs <;> ring

lemma selectLoop_spec (r : Request) :
    ∀ (l : List Elevator) (b : Elevator),
      ∃ c : Elevator,
        selectLoop r (some (b, calculate_score b r.pickup_floor r.direction)) l =
          some (c, calculate_score c r.pickup_floor r.direction) ∧
        ∃ l1 l2, b :: l = l1 ++ c :: l2 ∧
          (∀ x ∈ l1, calculate_score c r.pickup_floor r.direction <
            calculate_score x r.pickup_floor r.direction) ∧
          (∀ x ∈ l2, calculate_score c r.pickup_floor r.direction ≤
            calculate_score x r.pickup_floor r.direction) := by
  intro l
  induction l with
  | nil =>
    intro b
    exact ⟨b, rfl, [], [], rfl, by simp, by simp⟩
  | cons e rest ih =>
    intro b
    simp only [selectLoop]
    by_cases hlt : calculate_score e r.pickup_floor r.direction <
        calculate_score b r.pickup_floor r.direction
    · rw [if_pos hlt]
      obtain ⟨c, hc, l1, l2, hdec, hl1, hl2⟩ := ih e
      have hce : calculate_score c r.pickup_floor r.direction ≤
          calculate_score e r.pickup_floor r.direction := by
        rcases l1 with _ | ⟨x, l1'⟩
        · have : e = c := by
            simpa using congrArg (fun t => t.head?) hdec
          rw [this]
        · have : e = x := by
            simpa using congrArg (fun t => t.head?) hdec
          exact le_of_lt (this ▸ hl1 x (List.mem_cons_self x l1'))
      refine ⟨c, hc, b :: l1, l2, ?_, ?_, hl2⟩
      · rw [List.cons_append, ← hdec]
      · intro x hx
        rcases List.mem_cons.1 hx with rfl | hx'
        · exact lt_of_le_of_lt hce hlt
        · exact hl1 x hx'
    · rw [if_neg hlt]
      obtain ⟨c, hc, l1, l2, hdec, hl1, hl2⟩ := ih b
      have hbe : calculate_score b r.pickup_floor r.direction ≤
          calculate_score e r.pickup_floor r.direction := not_lt.1 hlt
      rcases l1 with _ | ⟨x, l1'⟩
      · have hbc : b = c ∧ rest = l2 := by
          have := hdec
          simp only [List.nil_append, List.cons.injEq] at this
          exact this
        refine ⟨c, hc, [], e :: l2, ?_, by simp, ?_⟩
        · simp [hbc.1, hbc.2]
        · intro y hy
          rcases List.mem_cons.1 hy with rfl | hy'
          · have heq : calculate_score c r.pickup_floor r.direction =
                calculate_score b r.pickup_floor r.direction := by rw [hbc.1]
            exact le_trans (le_of_eq heq) hbe
          · exact hl2 y hy'
      · have hbx : b = x ∧ rest = l1' ++ c :: l2 := by
          have := hdec
          simp only [List.cons_append, List.cons.injEq] at this
          exact this
        have hcb : calculate_score c r.pickup_floor r.direction <
            calculate_score b r.pickup_floor r.direction := by
          have := hl1 x (List.mem_cons_self x l1')
          rw [← hbx.1] at this
          exact this
        refine ⟨c, hc, b :: e :: l1', l2, ?_, ?_, hl2⟩
        · simp [hbx.2]
        · intro y hy
          rcases List.mem_cons.1 hy with rfl | hy'
          · exact hcb
          · rcases List.mem_cons.1 hy' with rfl | hy''
            · exact lt_of_lt_of_le hcb hbe
            · have := hl1 y (List.mem_cons_of_mem x hy'')
              exact this

/-- The three idle demo cars of the spec's LOOK example, at floors 0, 5
and 10. -/
def lookDemoFleet : List Elevator :=
  [mkElevator 0 0 10 8 0, mkElevator 1 0 10 8 5, mkElevator 2 0 10 8 10]

/-- The spec's LOOK example request: pickup floor 6 (destination 10). -/
def lookDemoRequest : Request := ⟨100, 6, 10, 1⟩

/-- C5: the LOOK-score strategy's cost is exactly the spec's formula
(distance, idle bonus `0.5 × pending`, direction multipliers `0.5/1.5/2.0`,
busy penalty `0.3 × pending`, load penalty `×1.5` when `load ≥ 0.8 ×
capacity`); the selected car is a compatible car of minimum cost, and every
compatible car listed before it in fleet order has strictly greater cost
(ties resolve to the first); and on the concrete example of idle cars at
floors `[0, 5, 10]` with pickup floor 6, the car at floor 5 is chosen. -/
theorem look_strategy_matches_spec :
    (∀ (e : Elevator) (pickup : Int) (rd : Direction),
      calculate_score e pickup rd = specLookCost e pickup rd) ∧
    (∀ (r : Request) (elevators : List Elevator),
      elevators.filter (fun e => e.can_accept_request r) ≠ [] →
      ∃ c l1 l2, look_select_elevator r elevators = some c ∧
        elevators.filter (fun e => e.can_accept_request r) = l1 ++ c :: l2 ∧
        (∀ x ∈ l1, calculate_score c r.pickup_floor r.direction <
          calculate_score x r.pickup_floor r.direction) ∧
        (∀ x ∈ l2, calculate_score c r.pickup_floor r.direction ≤
          calculate_score x r.pickup_floor r.direction)) ∧
    (look_select_elevator lookDemoRequest lookDemoFleet).map
      Elevator.current_floor = some 5 := by
  refine ⟨calculate_score_eq_spec, ?_, ?_⟩
  · intro r elevators hne
    unfold look_select_elevator
    rcases hcomp : elevators.filter (fun e => e.can_accept_request r) with _ | ⟨c0, cs⟩
    · exact absurd hcomp hne
    · obtain ⟨c, hc, l1, l2, hdec, h1, h2⟩ := selectLoop_spec r cs c0
      refine ⟨c, l1, l2, ?_, by rw [hcomp, hdec], h1, h2⟩
      simp only [hcomp, List.isEmpty_cons, if_false, Bool.false_eq_true, reduceIte,
        selectLoop]
      rw [hc]
      rfl
  · norm_num [look_select_elevator, selectLoop, calculate_score, Elevator.is_idle,
      Elevator.total_pending_stops, Elevator.distance_to, Elevator.can_accept_request,
      lookDemoFleet, lookDemoRequest, mkElevator, Request.direction, List.filter]

/-- Witness for C5's selection characterization at the concrete example
fleet (hypothesis: the compatible list is non-empty). -/
theorem look_strategy_matches_spec_witness :
    ∃ c l1 l2, look_select_elevator lookDemoRequest lookDemoFleet = some c ∧
      lookDemoFleet.filter (fun e => e.can_accept_request lookDemoRequest) =
        l1 ++ c :: l2 ∧
      (∀ x ∈ l1, calculate_score c lookDemoRequest.pickup_floor lookDemoRequest.direction <
        calculate_score x lookDemoRequest.pickup_floor lookDemoRequest.direction) ∧
      (∀ x ∈ l2, calculate_score c lookDemoRequest.pickup_floor lookDemoRequest.direction ≤
        calculate_score x lookDemoRequest.pickup_floor lookDemoRequest.direction) :=
  look_strategy_matches_spec.2.1 lookDemoRequest lookDemoFleet (by decide)

lemma fcfsLoop_spec (r : Request) (elevators : List Elevator) :
    ∀ (fuel ni : Nat),
      (∃ j < fuel, ∃ e, elevators[(ni + j) % elevators.length]? = some e ∧
        e.can_accept_request r = true) →
      ∃ (k : Nat) (e : Elevator), k < fuel ∧
        fcfsLoop r elevators elevators.length fuel ni =
          (some e, (ni + k + 1) % elevators.length) ∧
        elevators[(ni + k) % elevators.length]? = some e ∧
        e.can_accept_request r = true ∧
        (∀ j < k, ∀ e', elevators[(ni + j) % elevators.length]? = some e' →
          e'.can_accept_request r = false) := by
  intro fuel
  induction fuel with
  | zero =>
    intro ni h
    obtain ⟨j, hj, _⟩ := h
    exact absurd hj (Nat.not_lt_zero j)
  | succ fuel ih =>
    intro ni h
    obtain ⟨j, hj, e, hje, hce⟩ := h
    have hlen : (ni + j) % elevators.length < elevators.length := by
      by_contra hge
      rw [List.getElem?_eq_none (le_of_not_lt hge)] at hje
      cases hje
    have hn0 : 0 < elevators.length := by omega
    have hlt : ni % elevators.length < elevators.length := Nat.mod_lt ni hn0
    rcases hres : elevators[ni % elevators.length]? with _ | e0
    · rw [List.getElem?_eq_getElem hlt] at hres
      cases hres
    · by_cases hce0 : e0.can_accept_request r = true
      · simp only [fcfsLoop, hres, if_pos hce0]
        refine ⟨0, e0, Nat.succ_pos fuel, rfl, ?_, hce0, ?_⟩
        · rw [Nat.add_zero]
          exact hres
        · intro j' hj'
          exact absurd hj' (Nat.not_lt_zero j')
      · simp only [fcfsLoop, hres, if_neg hce0]
        have hnext : ∃ j < fuel, ∃ e,
            elevators[((ni + 1) % elevators.length + j) % elevators.length]? = some e ∧
            e.can_accept_request r = true := by
          rcases j with _ | j'
          · exfalso
            rw [Nat.add_zero] at hje
            rw [hres] at hje
            cases hje
            exact hce0 hce
          · refine ⟨j', by omega, e, ?_, hce⟩
            rw [Nat.mod_add_mod]
            have harg : ni + 1 + j' = ni + (j' + 1) := by omega
            rw [harg]
            exact hje
        obtain ⟨k, e, hk, hloop, hke, hce, hmin⟩ := ih ((ni + 1) % elevators.length) hnext
        refine ⟨k + 1, e, by omega, ?_, ?_, hce, ?_⟩
        · rw [hloop]
          have harg : ((ni + 1) % elevators.length + k + 1) % elevators.length =
              (ni + (k + 1) + 1) % elevators.length := by
            rw [Nat.add_assoc, Nat.mod_add_mod]
            congr 1
            omega
          rw [harg]
        · rw [Nat.mod_add_mod] at hke
          have harg : ni + 1 + k = ni + (k + 1) := by omega
          rw [harg] at hke
          exact hke
        · intro j2 hj2 e' hje'
          rcases j2 with _ | j'
          · rw [Nat.add_zero, hres] at hje'
            cases hje'
            simp only [Bool.not_eq_true] at hce0
            exact hce0
          · have hmj := hmin j' (by omega) e'
            rw [Nat.mod_add_mod] at hmj
            have harg : ni + 1 + j' = ni + (j' + 1) := by omega
            rw [harg] at hmj
            exact hmj hje'

/-- The three identical demo cars for the FCFS example. -/
def fcfsDemoFleet : List Elevator :=
  [mkElevator 0 0 10 8 0, mkElevator 1 0 10 8 0, mkElevator 2 0 10 8 0]

/-- The identical demo request for the FCFS example (floors 1 → 2). -/
def fcfsDemoRequest : Request := ⟨200, 1, 2, 1⟩

/-- C6: the FCFS (round-robin) strategy returns the first compatible car
within one full rotation starting at the rotating index (every position
strictly before it in the rotation holds an incompatible car), and leaves
the index just past the selected car — an advance of `k + 1 ∈ [1, n]`
positions; a fresh instance over a fleet of 3 always-compatible cars
assigns 6 identical requests to cars `[0, 1, 2, 0, 1, 2]`. -/
theorem fcfs_strategy_spec :
    (∀ (r : Request) (elevators : List Elevator) (ni : Nat),
      (∃ e ∈ elevators, e.can_accept_request r = true) →
      ∃ (k : Nat) (e : Elevator), k < elevators.length ∧
        fcfs_select_elevator r elevators ni =
          (some e, (ni + k + 1) % elevators.length) ∧
        elevators[(ni + k) % elevators.length]? = some e ∧
        e.can_accept_request r = true ∧
        (∀ j < k, ∀ e', elevators[(ni + j) % elevators.length]? = some e' →
          e'.can_accept_request r = false)) ∧
    fcfsRun fcfsDemoFleet 0
        [fcfsDemoRequest, fcfsDemoRequest, fcfsDemoRequest,
         fcfsDemoRequest, fcfsDemoRequest, fcfsDemoRequest] =
      [some 0, some 1, some 2, some 0, some 1, some 2] := by
  constructor
  · intro r elevators ni h
    obtain ⟨e, he, hce⟩ := h
    obtain ⟨m, hm, hget⟩ := List.mem_iff_getElem.1 he
    have hn0 : 0 < elevators.length := lt_of_le_of_lt (Nat.zero_le m) hm
    have ha : ni % elevators.length < elevators.length := Nat.mod_lt ni hn0
    have hidx : (ni + (m + elevators.length - ni % elevators.length) %
        elevators.length) % elevators.length = m := by
      rw [Nat.add_mod_mod]
      rcases le_or_lt (ni % elevators.length) m with hcase | hcase
      · rw [Nat.add_mod]
        have h2 : (m + elevators.length - ni % elevators.length) % elevators.length
            = m - ni % elevators.length := by
          have h3 : m + elevators.length - ni % elevators.length =
              (m - ni % elevators.length) + elevators.length := by omega
          rw [h3, Nat.add_mod_right]
          exact Nat.mod_eq_of_lt (by omega)
        rw [h2]
        have h5 : ni % elevators.length + (m - ni % elevators.length) = m := by omega
        rw [h5]
        exact Nat.mod_eq_of_lt hm
      · rw [Nat.add_mod]
        have h2 : (m + elevators.length - ni % elevators.length) % elevators.length
            = m + elevators.length - ni % elevators.length :=
          Nat.mod_eq_of_lt (by omega)
        rw [h2]
        have h5 : ni % elevators.length +
            (m + elevators.length - ni % elevators.length) =
            m + elevators.length := by omega
        rw [h5, Nat.add_mod_right]
        exact Nat.mod_eq_of_lt hm
    have hstart : ∃ j < elevators.length, ∃ e',
        elevators[(ni + j) % elevators.length]? = some e' ∧
        e'.can_accept_request r = true := by
      refine ⟨(m + elevators.length - ni % elevators.length) % elevators.length,
        Nat.mod_lt _ hn0, e, ?_, hce⟩
      rw [hidx, List.getElem?_eq_getElem hm, hget]
    obtain ⟨k, e', hk, hloop, hke, hce', hmin⟩ :=
      fcfsLoop_spec r elevators elevators.length ni hstart
    have hcompne : e ∈ elevators.filter (fun x => x.can_accept_request r) :=
      List.mem_filter.2 ⟨he, hce⟩
    rcases hcomp : elevators.filter (fun x => x.can_accept_request r) with _ | ⟨c, cs⟩
    · rw [hcomp] at hcompne
      cases hcompne
    · refine ⟨k, e', hk, ?_, hke, hce', hmin⟩
      simp only [fcfs_select_elevator, hcomp, hloop]
  · decide

/-- Witness for C6's rotation characterization at the concrete demo fleet
(hypothesis: some car is compatible). -/
theorem fcfs_strategy_spec_witness :
    ∃ (k : Nat) (e : Elevator), k < fcfsDemoFleet.length ∧
      fcfs_select_elevator fcfsDemoRequest fcfsDemoFleet 0 =
        (some e, (0 + k + 1) % fcfsDemoFleet.length) ∧
      fcfsDemoFleet[(0 + k) % fcfsDemoFleet.length]? = some e ∧
      e.can_accept_request fcfsDemoRequest = true ∧
      (∀ j < k, ∀ e', fcfsDemoFleet[(0 + j) % fcfsDemoFleet.length]? = some e' →
        e'.can_accept_request fcfsDemoRequest = false) :=
  fcfs_strategy_spec.1 fcfsDemoRequest fcfsDemoFleet 0 (by decide)

end ElevatorSystem
